import Mathlib

/-!
# Verification of the PlayStation price-drop engine

Shallow embedding of the discount-detection core of `app.py`:
the price parser `parse_price` and the report endpoint
`get_recent_discounts`.

Modelling conventions:
* Python `float` values are modelled as exact rationals (`ℚ`).  The
  engine only parses decimal literals, compares and subtracts, and all
  the concrete values appearing in the claims are exactly representable,
  so ordering and arithmetic agree with the Python floats there.
* Timestamps (`snapshotDate`, `now`) are modelled as integers counting
  seconds; `timedelta.days` is floor division by 86400 (`Int.fdiv`).
* A Mongo document field that may be absent is an `Option`;
  `d.get(k, default)` becomes `Option.getD`, while `d[k]` on a missing
  key (Python `KeyError`, caught by the endpoint's outer `try` which
  aborts the whole report) is modelled by the `Except Unit` monad.
* Python `str.lower` is `pyLower` (ASCII plus the Turkish letters that
  occur in the zero-cost tags; the dotted capital İ expands to two
  characters exactly as in Python).  `str.strip` strips the ASCII
  whitespace characters.
* Python `float(...)` string parsing is modelled for sign/digits/single
  decimal point forms (the only forms reachable from locale price text);
  exotic accepted forms (exponents, `inf`, `nan`, underscores) are out of
  the model and map to `none`.
-/

/-- Python `str.lower` on one character, restricted to ASCII letters and
the Turkish letters relevant to this data.  `'İ'` lowercases to the two
characters `"i"` + combining dot above, exactly as CPython does. -/
def pyLowerChar (c : Char) : List Char :=
  if 65 ≤ c.toNat ∧ c.toNat ≤ 90 then [Char.ofNat (c.toNat + 32)]
  else if c = 'Ü' then ['ü']
  else if c = 'Ç' then ['ç']
  else if c = 'Ş' then ['ş']
  else if c = 'Ö' then ['ö']
  else if c = 'Ğ' then ['ğ']
  else if c = 'İ' then ['i', '̇']
  else [c]

/-- Python `str.lower` over a character list. -/
def pyLower : List Char → List Char
  | [] => []
  | c :: r => pyLowerChar c ++ pyLower r

/-- The whitespace characters stripped by Python `str.strip()` (ASCII part). -/
def isPySpace (c : Char) : Bool :=
  c = ' ' || c = '\t' || c = '\n' || c = '\x0d' || c = '\x0b' || c = '\x0c'

/-- Python `str.strip()`: drop leading and trailing whitespace. -/
def pyStrip (l : List Char) : List Char :=
  ((l.dropWhile isPySpace).reverse.dropWhile isPySpace).reverse

/-- `startsWithL needle hay` : `needle` is a prefix of `hay`. -/
def startsWithL : List Char → List Char → Bool
  | [], _ => true
  | _ :: _, [] => false
  | a :: as, b :: bs => a = b && startsWithL as bs

/-- Python substring containment `needle in hay`. -/
def containsSub (needle : List Char) : List Char → Bool
  | [] => needle.isEmpty
  | b :: bs => startsWithL needle (b :: bs) || containsSub needle bs

/-- The zero-cost tags of `parse_price`
(`['ücretsiz', 'dahil', 'oyna', 'indir', 'n/a']`). -/
def zeroTags : List (List Char) :=
  ["ücretsiz".toList, "dahil".toList, "oyna".toList, "indir".toList, "n/a".toList]

/-- `any(tag in price_str for tag in [...])` of `parse_price`. -/
def hasZeroTag (l : List Char) : Bool :=
  zeroTags.any (fun t => containsSub t l)

/-- Decimal digit test (`48 ≤ code ≤ 57`), the digits accepted by the
modelled `float(...)` grammar. -/
def isDigitC (c : Char) : Bool :=
  48 ≤ c.toNat && c.toNat ≤ 57

/-- Numeric value of a digit string, most significant digit first. -/
def digitsVal (l : List Char) : Nat :=
  l.foldl (fun a c => 10 * a + (c.toNat - 48)) 0

/-- Python `float(...)` on an unsigned body: `digits`, `digits.`,
`digits.digits` or `.digits`.  The decimal literal `I.F` denotes the
rational `(I * 10^|F| + F) / 10^|F|`, built with `mkRat` (the
kernel-computable constructor; `Rat.add`/`Rat.div` are `irreducible`,
which is why the value is not written `I + F / 10 ^ |F|`). -/
def pyFloatBody (l : List Char) : Option ℚ :=
  let intPart := l.takeWhile isDigitC
  let rest := l.dropWhile isDigitC
  match rest with
  | [] => if intPart.isEmpty then none else some (mkRat (digitsVal intPart) 1)
  | '.' :: frac =>
    if frac.all isDigitC && !(intPart.isEmpty && frac.isEmpty) then
      some (mkRat (digitsVal intPart * 10 ^ frac.length + digitsVal frac) (10 ^ frac.length))
    else none
  | _ => none

/-- Python `float(...)` on the cleaned price text (see module comment for
the modelled subset). -/
def pyFloat (l : List Char) : Option ℚ :=
  match l with
  | '+' :: r => pyFloatBody r
  | '-' :: r => (pyFloatBody r).map Neg.neg
  | _ => pyFloatBody l

/-- `price_str.replace('.', '').replace(',', '.')`: drop every `'.'`
(thousands separator), then turn `','` into the decimal point. -/
def cleanChars (l : List Char) : List Char :=
  (l.filter (fun c => c ≠ '.')).map (fun c => if c = ',' then '.' else c)

/-- `parse_price` of `app.py`: `None` passes through; the text is
stripped and lowercased; any zero-cost tag makes it `0.0`; otherwise the
locale separators are normalised and the result parsed as a float, with
parse failure giving `None`. -/
def parse_price : Option String → Option ℚ
  | none => none
  | some s =>
    let t := pyLower (pyStrip s.toList)
    if hasZeroTag t then some 0
    else pyFloat (cleanChars t)

/-! ## Documents and report rows

A price-history document as the endpoint reads it from the `$group`
pipeline: `snapshotDate` and the edition `name`/`price` fields may be
missing (`Option`); `d.get('editions', [])` defaults a missing editions
list.  The histories handed to the engine are the post-`$match`,
date-ascending groups the aggregation produces. -/

/-- One entry of a snapshot's `editions` array. -/
structure EditionDoc where
  name : Option String
  price : Option String
deriving DecidableEq, Repr

/-- One price-history document. -/
structure SnapshotDoc where
  snapshotDate : Option Int
  editions : Option (List EditionDoc)
deriving DecidableEq, Repr

/-- A `games` collection document's displayed fields (each may be absent). -/
structure GameInfo where
  name : Option String
  coverUrl : Option String
deriving DecidableEq, Repr

/-- One entry of the report produced by `get_recent_discounts`. -/
structure Row where
  gameId : String
  name : String
  coverUrl : String
  editionName : String
  previousPrice : ℚ
  currentPrice : ℚ
  priceDrop : ℚ
deriving DecidableEq, Repr

instance {α β : Type} [DecidableEq α] [DecidableEq β] :
    DecidableEq (Except α β) := fun a b =>
  match a, b with
  | .ok x, .ok y =>
    if h : x = y then isTrue (by rw [h]) else isFalse (by intro hc; cases hc; exact h rfl)
  | .error x, .error y =>
    if h : x = y then isTrue (by rw [h]) else isFalse (by intro hc; cases hc; exact h rfl)
  | .ok _, .error _ => isFalse (by intro hc; cases hc)
  | .error _, .ok _ => isFalse (by intro hc; cases hc)

/-- `LOOKBACK_DAYS` of `app.py`. -/
def LOOKBACK_DAYS : Int := 7

/-- `(now - dropDate).days`: `timedelta.days` floors the difference in
whole days. -/
def daysDiff (now dropDate : Int) : Int :=
  Int.fdiv (now - dropDate) 86400

/-- Python-dict insertion: replace in place if the key exists, else
append (a Python `dict` keeps the original position on update). -/
def upsert {α : Type} (m : List (String × α)) (k : String) (v : α) :
    List (String × α) :=
  match m with
  | [] => [(k, v)]
  | (k', v') :: rest =>
    if k' = k then (k, v) :: rest else (k', v') :: upsert rest k v

/-- Python-dict lookup. -/
def lookupA {α : Type} (m : List (String × α)) (k : String) : Option α :=
  match m with
  | [] => none
  | (k', v') :: rest => if k' = k then some v' else lookupA rest k

/-- Fold a fallible step over a list, stopping at the first raised
exception (the endpoint's outer `try` catches everything, so any
`KeyError` aborts the whole report). -/
def foldE {α β : Type} (f : β → α → Except Unit β) : β → List α → Except Unit β
  | b, [] => .ok b
  | b, a :: r =>
    match f b a with
    | .error e => .error e
    | .ok b' => foldE f b' r

/-- One step of the previous-edition dict build: `e['name']` raises on
an edition missing its name, else the edition is inserted under its
name (a later duplicate name overwrites). -/
def prevInsertE (acc : List (String × EditionDoc)) (e : EditionDoc) :
    Except Unit (List (String × EditionDoc)) :=
  match e.name with
  | none => .error ()
  | some n => .ok (upsert acc n e)

/-- `{e['name']: e for e in previous_doc.get('editions', [])}` — builds
the previous-snapshot edition map; `e['name']` on an edition missing its
name raises. -/
def buildPrevMap (l : List EditionDoc) :
    Except Unit (List (String × EditionDoc)) :=
  foldE prevInsertE [] l

/-- Exact rational subtraction in `mkRat` cross-multiplication form; it
equals `a - b` (`ratSub_eq`, below) but, unlike `Rat.sub`, is not
`irreducible` and therefore evaluates inside `decide`. -/
def ratSub (a b : ℚ) : ℚ :=
  mkRat (a.num * b.den - b.num * a.den) (a.den * b.den)

/-- The report row built at a detected drop: metadata is joined with the
`'Bilinmeyen Oyun'` / `''` placeholders when missing. -/
def mkRow (infoMap : List (String × GameInfo)) (gameId edName : String)
    (pp cp : ℚ) : Row :=
  { gameId := gameId
    name := ((lookupA infoMap gameId).bind GameInfo.name).getD "Bilinmeyen Oyun"
    coverUrl := ((lookupA infoMap gameId).bind GameInfo.coverUrl).getD ""
    editionName := edName
    previousPrice := pp
    currentPrice := cp
    priceDrop := ratSub pp cp }

/-- Body of the inner `for current_edition in current_doc.get('editions', [])`
loop: `current_edition['name']` raises when absent; a drop
(`current_price < prev_price`, both parseable) is written into the
accumulator dict under the key `f"{game_id}-{name}"`. -/
def processEdition (infoMap : List (String × GameInfo)) (gameId : String)
    (prevMap : List (String × EditionDoc)) (acc : List (String × Row))
    (curEd : EditionDoc) : Except Unit (List (String × Row)) :=
  match curEd.name with
  | none => .error ()
  | some n =>
    match lookupA prevMap n with
    | none => .ok acc
    | some prevEd =>
      match parse_price prevEd.price, parse_price curEd.price with
      | some pp, some cp =>
        if cp < pp then
          .ok (upsert acc (gameId ++ "-" ++ n) (mkRow infoMap gameId n pp cp))
        else .ok acc
      | _, _ => .ok acc

/-- Body of the `for i in range(1, len(history))` loop:
`current_doc['snapshotDate']` raises when absent; a pair whose newer
snapshot is more than `LOOKBACK_DAYS` floor-days old is skipped
(`continue`); otherwise the previous-edition map is built and every
current edition examined. -/
def processPair (now : Int) (infoMap : List (String × GameInfo))
    (gameId : String) (acc : List (String × Row))
    (prevDoc curDoc : SnapshotDoc) : Except Unit (List (String × Row)) :=
  match curDoc.snapshotDate with
  | none => .error ()
  | some d =>
    if daysDiff now d > LOOKBACK_DAYS then .ok acc
    else
      match buildPrevMap (prevDoc.editions.getD []) with
      | .error e => .error e
      | .ok prevMap =>
        foldE (processEdition infoMap gameId prevMap) acc (curDoc.editions.getD [])

/-- Iterate a fallible step over the adjacent pairs of a list, oldest
first, threading the accumulator. -/
def foldPairsE {α β : Type} (f : β → α → α → Except Unit β) :
    β → List α → Except Unit β
  | b, [] => .ok b
  | b, [_] => .ok b
  | b, x :: y :: r =>
    match f b x y with
    | .error e => .error e
    | .ok b' => foldPairsE f b' (y :: r)

/-- One game group of the aggregation: skipped when its history has
fewer than two snapshots, otherwise scanned pair by pair. -/
def processGame (now : Int) (infoMap : List (String × GameInfo))
    (acc : List (String × Row)) (g : String × List SnapshotDoc) :
    Except Unit (List (String × Row)) :=
  if g.2.length < 2 then .ok acc
  else foldPairsE (processPair now infoMap g.1) acc g.2

/-- `b.priceDrop ≤ a.priceDrop`: the non-increasing-drop order of the
final report. -/
def rowGe (a b : Row) : Prop := b.priceDrop ≤ a.priceDrop

/-- Insert a row into a descending-by-`priceDrop` list, after any row of
equal drop (this is what makes the sort stable). -/
def insertDesc (r : Row) : List Row → List Row
  | [] => [r]
  | x :: xs => if x.priceDrop < r.priceDrop then r :: x :: xs else x :: insertDesc r xs

/-- `sorted(..., key=lambda x: x['priceDrop'], reverse=True)`: a stable
sort, descending by `priceDrop`; rows of equal drop keep their dict
insertion order. -/
def pySort (l : List Row) : List Row :=
  l.foldl (fun acc r => insertDesc r acc) []

/-- The core of the `/games/most-price-drops` endpoint
(`get_recent_discounts` in `app.py`), taking the grouped, date-ascending
histories the aggregation pipeline returns, the `games` metadata map and
the current time.  An empty group list returns the empty report at once;
any `KeyError` during the scan is caught by the endpoint's `try` and
turns the whole response into an error (`.error ()` here); otherwise the
accumulated dict's values are sorted by descending drop. -/
def get_recent_discounts (now : Int)
    (allGameHistories : List (String × List SnapshotDoc))
    (infoMap : List (String × GameInfo)) : Except Unit (List Row) :=
  if allGameHistories = [] then .ok []
  else
    match foldE (processGame now infoMap) [] allGameHistories with
    | .error e => .error e
    | .ok m => .ok (pySort (m.map Prod.snd))

/-! ## The scan as a sequence of dict writes

The theorems about deduplication and reporting decompose the engine
into the ordered list of dict writes it performs.  The following pure
definitions mirror the scan on well-formed documents (every snapshot
carrying its date, every edition its name; on such inputs the engine
raises nothing, see `engine_eq_writes`). -/

/-- Pure mirror of `prevInsertE` (an edition missing its name is
skipped here; the engine raises instead, so the two agree on
well-formed editions). -/
def prevInsert (acc : List (String × EditionDoc)) (e : EditionDoc) :
    List (String × EditionDoc) :=
  match e.name with
  | none => acc
  | some n => upsert acc n e

/-- Pure mirror of `buildPrevMap`. -/
def prevMapOf (l : List EditionDoc) : List (String × EditionDoc) :=
  l.foldl prevInsert []

/-- The single dict write `processEdition` performs, if any. -/
def edWrite (infoMap : List (String × GameInfo)) (gameId : String)
    (prevMap : List (String × EditionDoc)) (curEd : EditionDoc) :
    Option (String × Row) :=
  match curEd.name with
  | none => none
  | some n =>
    match lookupA prevMap n with
    | none => none
    | some prevEd =>
      match parse_price prevEd.price, parse_price curEd.price with
      | some pp, some cp =>
        if cp < pp then
          some (gameId ++ "-" ++ n, mkRow infoMap gameId n pp cp)
        else none
      | _, _ => none

/-- Apply an optional write to the accumulator dict. -/
def applyW (acc : List (String × Row)) : Option (String × Row) →
    List (String × Row)
  | none => acc
  | some w => upsert acc w.1 w.2

/-- The dict writes one adjacent snapshot pair performs, in order. -/
def pairWrites (now : Int) (infoMap : List (String × GameInfo))
    (gameId : String) (prevDoc curDoc : SnapshotDoc) : List (String × Row) :=
  match curDoc.snapshotDate with
  | none => []
  | some d =>
    if daysDiff now d > LOOKBACK_DAYS then []
    else
      (curDoc.editions.getD []).filterMap
        (edWrite infoMap gameId (prevMapOf (prevDoc.editions.getD [])))

/-- Adjacent pairs of a list, oldest first. -/
def adjPairs {α : Type} : List α → List (α × α)
  | [] => []
  | [_] => []
  | x :: y :: r => (x, y) :: adjPairs (y :: r)

/-- All dict writes of one item, in scan order. -/
def gameWrites (now : Int) (infoMap : List (String × GameInfo))
    (g : String × List SnapshotDoc) : List (String × Row) :=
  (adjPairs g.2).flatMap (fun p => pairWrites now infoMap g.1 p.1 p.2)

/-- All dict writes of the whole bulk scan, in scan order. -/
def allWrites (now : Int) (infoMap : List (String × GameInfo))
    (hs : List (String × List SnapshotDoc)) : List (String × Row) :=
  hs.flatMap (gameWrites now infoMap)

/-- Apply a list of writes to a dict, in order. -/
def applyWrites (init : List (String × Row)) (ws : List (String × Row)) :
    List (String × Row) :=
  ws.foldl (fun m w => upsert m w.1 w.2) init

/-- The value of the last write under key `k`, if any. -/
def lastW (k : String) : List (String × Row) → Option Row
  | [] => none
  | w :: r =>
    match lastW k r with
    | some v => some v
    | none => if w.1 = k then some w.2 else none

/-- The dedup key a report row corresponds to. -/
def rowKey (r : Row) : String :=
  r.gameId ++ "-" ++ r.editionName

/-- Well-formed history: every snapshot carries its date and every
edition its name (the fields whose absence raises a `KeyError`). -/
def HistWF (h : List SnapshotDoc) : Prop :=
  ∀ s ∈ h, s.snapshotDate ≠ none ∧ ∀ e ∈ s.editions.getD [], e.name ≠ none

instance (h : List SnapshotDoc) : Decidable (HistWF h) :=
  decidable_of_iff
    (∀ s ∈ h, s.snapshotDate ≠ none ∧ ∀ e ∈ s.editions.getD [], e.name ≠ none)
    Iff.rfl

/-- An adjacent pair qualifies for edition `e`: the newer snapshot's
date lies within the window (floor day-difference at most
`LOOKBACK_DAYS`), the older snapshot's edition dict has an entry for
`e`, the newer snapshot has an edition named `e`, both prices parse,
and the newer is strictly lower. -/
def QualifyingPair (now : Int) (prevDoc curDoc : SnapshotDoc) (e : String) : Prop :=
  (∃ d, curDoc.snapshotDate = some d ∧ daysDiff now d ≤ LOOKBACK_DAYS) ∧
  ∃ prevEd, lookupA (prevMapOf (prevDoc.editions.getD [])) e = some prevEd ∧
  ∃ curEd ∈ curDoc.editions.getD [], curEd.name = some e ∧
  ∃ pp cp, parse_price prevEd.price = some pp ∧
    parse_price curEd.price = some cp ∧ cp < pp

/-! ## The run-based detector of the specification

The specification describes a run-based state machine (its section 4.3)
that the code does not implement.  To compare the code against that
description, the state machine is defined here from the specification's
words; it is used only to exhibit inputs on which the code and the
specification disagree. -/

/-- Modelled from the spec: the parsed price an edition named `e`
carries in a snapshot, if any. -/
def specPriceOf (e : String) (s : SnapshotDoc) : Option ℚ :=
  match (s.editions.getD []).find? (fun ed => ed.name = some e) with
  | none => none
  | some ed => parse_price ed.price

/-- Modelled from the spec: one step of the run walk for edition `e`.
The state is `none` (not in discount) or `some d` (in a discount run
that started at `d`).  A pair with an unparsable price (or missing
edition or date) is skipped without resetting; a decrease opens a run
at the newer capture date if none is open; a non-decrease closes it. -/
def specRunStep (e : String) (st : Option Int)
    (pair : SnapshotDoc × SnapshotDoc) : Option Int :=
  match specPriceOf e pair.1, specPriceOf e pair.2, pair.2.snapshotDate with
  | some po, some pn, some d =>
    if pn < po then
      match st with
      | none => some d
      | some d0 => some d0
    else none
  | _, _, _ => st

/-- Modelled from the spec: the start date of the still-active discount
run for edition `e`, walking the ordered history oldest to newest. -/
def specActiveStart (e : String) (hist : List SnapshotDoc) : Option Int :=
  (adjPairs hist).foldl (specRunStep e) none

/-- Modelled from the spec: the edition qualifies as an active discount
iff the run is still open and its start date lies in `[now - W, now]`
(`W` in days). -/
def specActiveDiscount (now windowDays : Int) (e : String)
    (hist : List SnapshotDoc) : Bool :=
  match specActiveStart e hist with
  | none => false
  | some d => decide (now - windowDays * 86400 ≤ d ∧ d ≤ now)

/-! ## Concrete inputs used by the claims

Dates are seconds since an arbitrary epoch placed at 2024-01-01, so
2024-01-05 is `daySecs 4`, 2024-01-07 is `daySecs 6`, and the report
time `now = 2024-01-08` is `daySecs 7`. -/

/-- Whole days in seconds. -/
def daySecs (n : Int) : Int := n * 86400

/-- A snapshot carrying one fully-populated edition. -/
def oneEdSnap (t : Int) (nm pr : String) : SnapshotDoc :=
  { snapshotDate := some t
    editions := some [{ name := some nm, price := some pr }] }

/-- The history of spec Example 2:
`[("2024-01-01","49,99"), ("2024-01-05","39,99"), ("2024-01-07","49,99")]`. -/
def exampleTwoHist : List SnapshotDoc :=
  [oneEdSnap 0 "Standard" "49,99",
   oneEdSnap (daySecs 4) "Standard" "39,99",
   oneEdSnap (daySecs 6) "Standard" "49,99"]

/-- The report row the engine produces from `exampleTwoHist`. -/
def exampleTwoRow : Row :=
  { gameId := "g", name := "Bilinmeyen Oyun", coverUrl := ""
    editionName := "Standard", previousPrice := mkRat 4999 100
    currentPrice := mkRat 3999 100, priceDrop := 10 }

/-! ## Rendering numbers (modelled from the spec)

`app.py` never renders a parsed price back to text (the JSON layer
serialises the floats directly), so the "canonical numeric rendering"
that the spec's idempotence property speaks about is modelled here from
the spec: the ordinary decimal rendering with `.` as the decimal
separator and no thousands grouping, exactly how the float would appear
in the JSON output. -/

/-- Decimal digit character for `d < 10`. -/
def natToChar : Nat → Char
  | 0 => '0'
  | 1 => '1'
  | 2 => '2'
  | 3 => '3'
  | 4 => '4'
  | 5 => '5'
  | 6 => '6'
  | 7 => '7'
  | 8 => '8'
  | 9 => '9'
  | _ => '*'

/-- Accumulator loop producing the decimal digits of `n` before `acc`;
the first argument is structural fuel (any fuel at least `n` is enough),
keeping the definition kernel-computable. -/
def renderNatGo : Nat → Nat → List Char → List Char
  | 0, _, acc => acc
  | fuel + 1, n, acc =>
    if n = 0 then acc
    else renderNatGo fuel (n / 10) (natToChar (n % 10) :: acc)

/-- Decimal rendering of a natural number. -/
def renderNat (n : Nat) : List Char :=
  if n = 0 then ['0'] else renderNatGo n n []

/-- Modelled from the spec: the canonical numeric rendering of a parsed
price — decimal digits with `.` as decimal separator (`"49.99"`,
`"1299.5"`, `"59"`), no thousands grouping, as the value appears in the
JSON response.  For a denominator that is no power of ten the search
finds no exponent and the fractional part degenerates; parse outputs
always have power-of-ten denominators, so that case is never exercised. -/
def renderPrice (q : ℚ) : String :=
  let sign := if q.num < 0 then "-" else ""
  let n := q.num.natAbs
  if q.den = 1 then sign ++ String.mk (renderNat n)
  else
    let k := (((List.range (q.den + 1)).find? (fun k => 10 ^ k % q.den = 0)).getD 0)
    let ip := n / q.den
    let fr := n * 10 ^ k / q.den % 10 ^ k
    let fd := renderNat fr
    sign ++ String.mk (renderNat ip ++ '.' :: (List.replicate (k - fd.length) '0' ++ fd))

/-! ## Theorems -/

/-- `ratSub` is ordinary rational subtraction. -/
theorem ratSub_eq (a b : ℚ) : ratSub a b = a - b :=
  (Rat.sub_def' a b).symm

/-- Claim C1, counterexample.  On the history of spec Example 2 (a drop
on 01-05 followed by a price increase on 01-07), with `now = 2024-01-08`
and the 7-day lookback, the report is NOT empty: the claim that a later
non-decreasing transition closes the run and yields zero events is false
for this code. -/
theorem C1_counterexample :
    get_recent_discounts (daySecs 7) [("g", exampleTwoHist)] [] ≠ .ok [] := by
  decide

/-- Claim C1, amended.  The engine records every adjacent in-window
price decrease; a later non-decreasing transition neither cancels nor
resets it.  On the Example 2 history the report therefore contains
exactly the one event of the 01-05 drop (previous 49.99, current 39.99,
drop 10.00) — the same report as if the 01-07 increase snapshot were
absent. -/
theorem C1_amended_report :
    get_recent_discounts (daySecs 7) [("g", exampleTwoHist)] []
      = .ok [exampleTwoRow] ∧
    get_recent_discounts (daySecs 7) [("g", exampleTwoHist.take 2)] []
      = .ok [exampleTwoRow] := by
  constructor
  · decide
  · decide

/-- Claim C3, counterexample.  History: edition `"E"` at 20.00
(01-01), `"E"` at 10.00 (01-05), then a latest snapshot (01-07)
containing only edition `"F"`.  Edition `"E"` does not appear in the
most recent snapshot, yet the engine still reports its event — the
"only editions of the latest snapshot" restriction does not exist in
this code. -/
theorem C3_counterexample :
    (((oneEdSnap (daySecs 6) "F" "5,00").editions.getD []).all
        (fun e => e.name ≠ some "E")) = true ∧
    get_recent_discounts (daySecs 7)
        [("g", [oneEdSnap 0 "E" "20,00",
                oneEdSnap (daySecs 4) "E" "10,00",
                oneEdSnap (daySecs 6) "F" "5,00"])] []
      = .ok [{ gameId := "g", name := "Bilinmeyen Oyun", coverUrl := ""
               editionName := "E", previousPrice := mkRat 2000 100
               currentPrice := mkRat 1000 100, priceDrop := 10 }] := by
  constructor
  · decide
  · decide

/-- Claim C3, amended.  An item with fewer than two snapshots in the
scanned history yields no event at all; but an edition need not appear
in the latest snapshot — any adjacent in-window pair sharing the
edition with a price decrease produces its event, as on the concrete
history whose latest snapshot lacks edition `"E"`. -/
theorem C3_amended :
    (∀ (now : Int) (g : String) (hist : List SnapshotDoc)
        (infoMap : List (String × GameInfo)), hist.length < 2 →
      get_recent_discounts now [(g, hist)] infoMap = .ok []) ∧
    get_recent_discounts (daySecs 7)
        [("g", [oneEdSnap 0 "E" "20,00",
                oneEdSnap (daySecs 4) "E" "10,00",
                oneEdSnap (daySecs 6) "F" "5,00"])] []
      = .ok [{ gameId := "g", name := "Bilinmeyen Oyun", coverUrl := ""
               editionName := "E", previousPrice := mkRat 2000 100
               currentPrice := mkRat 1000 100, priceDrop := 10 }] := by
  constructor
  · intro now g hist infoMap h
    simp [get_recent_discounts, foldE, processGame, h, pySort]
  · decide

/-- Claim C3, witness for the amended theorem at a concrete input: a
single-snapshot history produces the empty report. -/
theorem C3_amended_witness :
    get_recent_discounts 0 [("g", [oneEdSnap 0 "E" "10,00"])] [] = .ok [] :=
  C3_amended.1 0 "g" [oneEdSnap 0 "E" "10,00"] [] (by decide)

/-- Claim C5, counterexample.  Two items with equal drops of 10.00:
item `"a"` drops on 01-02 (`daySecs 1`), item `"b"` drops later, on
01-06 (`daySecs 5`).  The report keeps them in dict-insertion order —
`"a"` first — not with the more recent `dropDate` first; there is no
`dropDate`/`itemId` tie-break in this code (the rows do not even carry
a date). -/
theorem C5_counterexample :
    get_recent_discounts (daySecs 7)
        [("a", [oneEdSnap 0 "P" "30,00", oneEdSnap (daySecs 1) "P" "20,00"]),
         ("b", [oneEdSnap 0 "P" "30,00", oneEdSnap (daySecs 5) "P" "20,00"])] []
      = .ok
        [{ gameId := "a", name := "Bilinmeyen Oyun", coverUrl := ""
           editionName := "P", previousPrice := 30, currentPrice := 20
           priceDrop := 10 },
         { gameId := "b", name := "Bilinmeyen Oyun", coverUrl := ""
           editionName := "P", previousPrice := 30, currentPrice := 20
           priceDrop := 10 }] := by
  decide

/-- Claim C6, counterexample.  Bulk scan of two items: item `"a"` has a
valid in-window drop; item `"b"` has one snapshot whose edition lacks
the `name` field.  The `KeyError` aborts the whole endpoint (`error`),
so the single corrupt record suppresses the valid event of the OTHER
item, which the same input without the corrupt item does produce. -/
theorem C6_counterexample :
    get_recent_discounts (daySecs 7)
        [("a", [oneEdSnap 0 "E" "20,00", oneEdSnap (daySecs 4) "E" "10,00"]),
         ("b", [oneEdSnap 0 "X" "5,00",
                { snapshotDate := some (daySecs 4)
                  editions := some [{ name := none, price := some "4,00" }] }])] []
      = .error () ∧
    get_recent_discounts (daySecs 7)
        [("a", [oneEdSnap 0 "E" "20,00", oneEdSnap (daySecs 4) "E" "10,00"])] []
      = .ok [{ gameId := "a", name := "Bilinmeyen Oyun", coverUrl := ""
               editionName := "E", previousPrice := mkRat 2000 100
               currentPrice := mkRat 1000 100, priceDrop := 10 }] := by
  constructor
  · decide
  · decide

/-- Claim C6, amended.  A snapshot missing its `editions` list and an
edition missing its `price` field are indeed skipped per adjacent pair
— the scan continues and later valid pairs of the same item still
produce their events.  But a record missing the edition `name` (or the
snapshot date) raises, aborting the entire bulk scan and dropping every
event, as the second conjunct shows. -/
theorem C6_amended :
    get_recent_discounts (daySecs 7)
        [("c", [{ snapshotDate := some 0, editions := none },
                oneEdSnap (daySecs 1) "E" "20,00",
                { snapshotDate := some (daySecs 2)
                  editions := some [{ name := some "E", price := none }] },
                oneEdSnap (daySecs 3) "E" "10,00",
                oneEdSnap (daySecs 4) "E" "5,00"])] []
      = .ok [{ gameId := "c", name := "Bilinmeyen Oyun", coverUrl := ""
               editionName := "E", previousPrice := mkRat 1000 100
               currentPrice := mkRat 500 100, priceDrop := 5 }] ∧
    get_recent_discounts (daySecs 7)
        [("n", [oneEdSnap 0 "X" "5,00",
                { snapshotDate := some (daySecs 1)
                  editions := some [{ name := none, price := some "4,00" }] }])] []
      = .error () := by
  constructor
  · decide
  · decide

/-- Claim C7, counterexample.  With no snapshot data at all the endpoint
returns the plain OK empty list — the very same response an ordinary
scan with data but no discounts returns.  There is no distinguishable
"no comparison data" status in this code. -/
theorem C7_counterexample :
    get_recent_discounts (daySecs 7) [] [] = .ok ([] : List Row) ∧
    get_recent_discounts (daySecs 7)
        [("g", [oneEdSnap 0 "E" "10,00", oneEdSnap (daySecs 1) "E" "10,00"])] []
      = .ok ([] : List Row) := by
  constructor
  · decide
  · decide

/-- Claim C10, confirmed.  The dedup key is the string
`f"{game_id}-{edition_name}"`, so the distinct pairs
`("a-b", "c")` and `("a", "b-c")` collide.  Each item alone produces
its own event, but scanned together they yield a single report row —
the later-processed item `"a"` overwrites the earlier `"a-b"`. -/
theorem C10_key_collision :
    ("a-b" ++ "-" ++ "c" = "a" ++ "-" ++ "b-c") ∧
    (("a-b", "c") ≠ (("a" : String), ("b-c" : String))) ∧
    get_recent_discounts (daySecs 7)
        [("a-b", [oneEdSnap 0 "c" "30,00", oneEdSnap (daySecs 4) "c" "20,00"])] []
      = .ok [{ gameId := "a-b", name := "Bilinmeyen Oyun", coverUrl := ""
               editionName := "c", previousPrice := 30, currentPrice := 20
               priceDrop := 10 }] ∧
    get_recent_discounts (daySecs 7)
        [("a", [oneEdSnap 0 "b-c" "50,00", oneEdSnap (daySecs 5) "b-c" "45,00"])] []
      = .ok [{ gameId := "a", name := "Bilinmeyen Oyun", coverUrl := ""
               editionName := "b-c", previousPrice := 50, currentPrice := 45
               priceDrop := 5 }] ∧
    get_recent_discounts (daySecs 7)
        [("a-b", [oneEdSnap 0 "c" "30,00", oneEdSnap (daySecs 4) "c" "20,00"]),
         ("a", [oneEdSnap 0 "b-c" "50,00", oneEdSnap (daySecs 5) "b-c" "45,00"])] []
      = .ok [{ gameId := "a", name := "Bilinmeyen Oyun", coverUrl := ""
               editionName := "b-c", previousPrice := 50, currentPrice := 45
               priceDrop := 5 }] := by
  refine ⟨by decide, by decide, by decide, by decide, by decide⟩

/-- Items whose histories all have fewer than two snapshots leave the
report accumulator untouched. -/
theorem foldE_processGame_short (now : Int) (infoMap : List (String × GameInfo)) :
    ∀ (hs : List (String × List SnapshotDoc)) (acc : List (String × Row)),
      (∀ p ∈ hs, p.2.length < 2) →
      foldE (processGame now infoMap) acc hs = .ok acc := by
  intro hs
  induction hs with
  | nil => intro acc _; rfl
  | cons p rest ih =>
    intro acc h
    have hp : p.2.length < 2 := h p (by simp)
    simp only [foldE, processGame, if_pos hp]
    exact ih acc (fun q hq => h q (by simp [hq]))

/-- Claim C7, amended.  When every item has fewer than two snapshots in
the scanned window (in particular when there is no data at all, so fewer
than two distinct capture times exist), the endpoint does not crash: it
returns the plain empty OK report — but that result is identical to an
ordinary empty-but-ok report, with no distinguishable status. -/
theorem C7_amended :
    ∀ (now : Int) (hs : List (String × List SnapshotDoc))
      (infoMap : List (String × GameInfo)),
      (∀ p ∈ hs, p.2.length < 2) →
      get_recent_discounts now hs infoMap = .ok [] := by
  intro now hs infoMap h
  unfold get_recent_discounts
  by_cases he : hs = []
  · simp [he]
  · simp only [if_neg he, foldE_processGame_short now infoMap hs [] h]
    simp [pySort]

/-- Claim C7, witness for the amended theorem: one item with a single
snapshot gives the empty OK report. -/
theorem C7_amended_witness :
    get_recent_discounts 0 [("w", [oneEdSnap 0 "E" "10,00"])] [] = .ok [] :=
  C7_amended 0 [("w", [oneEdSnap 0 "E" "10,00"])] [] (by decide)

/-- Inserting below a head that dominates the new row keeps the
descending chain. -/
theorem insertDesc_chain_cons (r : Row) :
    ∀ (l : List Row) (x : Row), (x :: l).Chain' rowGe → rowGe x r →
      (x :: insertDesc r l).Chain' rowGe := by
  intro l
  induction l with
  | nil =>
    intro x _ hxr
    exact List.chain'_cons.mpr ⟨hxr, List.chain'_singleton r⟩
  | cons y ys ih =>
    intro x h hxr
    have hxy : rowGe x y := (List.chain'_cons.mp h).1
    have hyys : (y :: ys).Chain' rowGe := (List.chain'_cons.mp h).2
    by_cases hlt : y.priceDrop < r.priceDrop
    · have : insertDesc r (y :: ys) = r :: y :: ys := by
        simp [insertDesc, hlt]
      rw [this]
      exact List.chain'_cons.mpr ⟨hxr, List.chain'_cons.mpr ⟨le_of_lt hlt, hyys⟩⟩
    · have : insertDesc r (y :: ys) = y :: insertDesc r ys := by
        simp [insertDesc, hlt]
      rw [this]
      exact List.chain'_cons.mpr ⟨hxy, ih y hyys (not_lt.mp hlt)⟩

/-- Insertion preserves the descending-by-`priceDrop` chain. -/
theorem insertDesc_chain (r : Row) (l : List Row) (h : l.Chain' rowGe) :
    (insertDesc r l).Chain' rowGe := by
  cases l with
  | nil => exact List.chain'_singleton r
  | cons x xs =>
    by_cases hlt : x.priceDrop < r.priceDrop
    · have : insertDesc r (x :: xs) = r :: x :: xs := by simp [insertDesc, hlt]
      rw [this]
      exact List.chain'_cons.mpr ⟨le_of_lt hlt, h⟩
    · have : insertDesc r (x :: xs) = x :: insertDesc r xs := by simp [insertDesc, hlt]
      rw [this]
      exact insertDesc_chain_cons r xs x h (not_lt.mp hlt)

/-- The sorted output of `pySort` is a descending chain, whatever the
starting accumulator is. -/
theorem pySort_chain_aux :
    ∀ (l acc : List Row), acc.Chain' rowGe →
      (l.foldl (fun a r => insertDesc r a) acc).Chain' rowGe := by
  intro l
  induction l with
  | nil => intro acc h; exact h
  | cons x xs ih =>
    intro acc h
    exact ih (insertDesc x acc) (insertDesc_chain x acc h)

/-- The report sort always yields a descending chain. -/
theorem pySort_chain (l : List Row) : (pySort l).Chain' rowGe :=
  pySort_chain_aux l [] List.chain'_nil

/-- Claim C5, amended.  Every successful report is sorted in
non-increasing order of `priceDrop`; rows of equal drop keep the dict
insertion order in which they were detected (items in scan order, and
within an item oldest-pair first) — there is no `dropDate`-descending or
`itemId`-ascending tie-break, and the rows carry no date at all. -/
theorem C5_amended :
    ∀ (now : Int) (hs : List (String × List SnapshotDoc))
      (infoMap : List (String × GameInfo)) (rows : List Row),
      get_recent_discounts now hs infoMap = .ok rows →
      rows.Chain' rowGe := by
  intro now hs infoMap rows h
  unfold get_recent_discounts at h
  split at h
  · cases h
    exact List.chain'_nil
  · split at h
    · cases h
    · cases h
      exact pySort_chain _

/-- Claim C5, witness for the amended theorem at the concrete equal-drop
input: the two resulting rows form a descending chain. -/
theorem C5_amended_witness :
    List.Chain' rowGe
      [{ gameId := "a", name := "Bilinmeyen Oyun", coverUrl := ""
         editionName := "P", previousPrice := 30, currentPrice := 20
         priceDrop := 10 },
       { gameId := "b", name := "Bilinmeyen Oyun", coverUrl := ""
         editionName := "P", previousPrice := 30, currentPrice := 20
         priceDrop := 10 }] :=
  C5_amended (daySecs 7)
    [("a", [oneEdSnap 0 "P" "30,00", oneEdSnap (daySecs 1) "P" "20,00"]),
     ("b", [oneEdSnap 0 "P" "30,00", oneEdSnap (daySecs 5) "P" "20,00"])] []
    _ (by decide)

/-- `startsWithL` decides list prefixing. -/
theorem startsWithL_iff : ∀ (t l : List Char), startsWithL t l = true ↔ t <+: l := by
  intro t
  induction t with
  | nil => intro l; simp [startsWithL]
  | cons a as ih =>
    intro l
    cases l with
    | nil => simp [startsWithL]
    | cons b bs =>
      simp only [startsWithL, Bool.and_eq_true, decide_eq_true_eq,
        List.cons_prefix_cons, ih bs]

/-- `containsSub` decides Python substring containment (list infixing). -/
theorem containsSub_iff : ∀ (t l : List Char), containsSub t l = true ↔ t <:+: l := by
  intro t l
  induction l with
  | nil => simp [containsSub]
  | cons b bs ih =>
    simp only [containsSub, Bool.or_eq_true, startsWithL_iff, ih,
      List.infix_cons_iff]

/-- Whitespace characters lowercase to themselves. -/
theorem pyLowerChar_space (c : Char) (h : isPySpace c = true) : pyLowerChar c = [c] := by
  simp only [isPySpace, Bool.or_eq_true, decide_eq_true_eq] at h
  rcases h with ((((h | h) | h) | h) | h) | h <;> subst h <;> decide

/-- Lowercasing distributes over concatenation. -/
theorem pyLower_append : ∀ (a b : List Char), pyLower (a ++ b) = pyLower a ++ pyLower b := by
  intro a b
  induction a with
  | nil => rfl
  | cons c r ih => simp [pyLower, ih]

/-- Lowercasing an all-whitespace run is the identity. -/
theorem pyLower_of_space :
    ∀ (w : List Char), (∀ c ∈ w, isPySpace c = true) → pyLower w = w := by
  intro w
  induction w with
  | nil => intro _; rfl
  | cons c r ih =>
    intro h
    have hc := pyLowerChar_space c (h c (by simp))
    simp [pyLower, hc, ih (fun x hx => h x (by simp [hx]))]

/-- Stripping splits a string into an all-whitespace run, the stripped
core, and another all-whitespace run. -/
theorem pyStrip_decomp (l : List Char) :
    ∃ w1 w2, l = w1 ++ pyStrip l ++ w2 ∧
      (∀ c ∈ w1, isPySpace c = true) ∧ (∀ c ∈ w2, isPySpace c = true) := by
  refine ⟨l.takeWhile isPySpace,
    ((l.dropWhile isPySpace).reverse.takeWhile isPySpace).reverse, ?_, ?_, ?_⟩
  · unfold pyStrip
    conv_lhs => rw [← List.takeWhile_append_dropWhile isPySpace l]
    rw [List.append_assoc]
    congr 1
    conv_lhs => rw [← List.reverse_reverse (l.dropWhile isPySpace)]
    conv_lhs =>
      rw [← List.takeWhile_append_dropWhile isPySpace (l.dropWhile isPySpace).reverse]
    rw [List.reverse_append]
  · intro c hc
    exact List.mem_takeWhile_imp hc
  · intro c hc
    rw [List.mem_reverse] at hc
    exact List.mem_takeWhile_imp hc

/-- A nonempty token with no whitespace that occurs in an all-whitespace
run followed by `m` occurs in `m`. -/
theorem infix_of_space_left {t : List Char} (ht : t ≠ [])
    (hns : ∀ c ∈ t, isPySpace c = false) :
    ∀ (w m : List Char), (∀ c ∈ w, isPySpace c = true) →
      t <:+: w ++ m → t <:+: m := by
  intro w
  induction w with
  | nil => intro m _ h; simpa using h
  | cons c ws ih =>
    intro m hw h
    rw [List.cons_append, List.infix_cons_iff] at h
    rcases h with h | h
    · cases t with
      | nil => exact absurd rfl ht
      | cons a as =>
        rw [List.cons_prefix_cons] at h
        have : isPySpace a = true := h.1 ▸ hw c (by simp)
        have := hns a (by simp)
        simp_all
    · exact ih m (fun x hx => hw x (by simp [hx])) h

/-- A nonempty token with no whitespace that occurs in `m` followed by an
all-whitespace run occurs in `m`. -/
theorem infix_of_space_right {t : List Char} (ht : t ≠ [])
    (hns : ∀ c ∈ t, isPySpace c = false) (m w : List Char)
    (hw : ∀ c ∈ w, isPySpace c = true) (h : t <:+: m ++ w) : t <:+: m := by
  have hr : t.reverse <:+: w.reverse ++ m.reverse := by
    rw [← List.reverse_append]
    exact List.reverse_infix.mpr h
  have htr : t.reverse ≠ [] := by simpa using ht
  have hnsr : ∀ c ∈ t.reverse, isPySpace c = false := by
    intro c hc
    exact hns c (List.mem_reverse.mp hc)
  have hwr : ∀ c ∈ w.reverse, isPySpace c = true := by
    intro c hc
    exact hw c (List.mem_reverse.mp hc)
  have := infix_of_space_left htr hnsr w.reverse m.reverse hwr hr
  simpa using List.reverse_infix.mpr this

/-- A zero-cost tag found in the lowercased text is still found in the
lowercased stripped text: stripping only removes leading/trailing
whitespace and no tag contains whitespace. -/
theorem hasZeroTag_strip (l : List Char)
    (h : hasZeroTag (pyLower l) = true) :
    hasZeroTag (pyLower (pyStrip l)) = true := by
  rw [hasZeroTag, List.any_eq_true] at h ⊢
  obtain ⟨t, htmem, hct⟩ := h
  refine ⟨t, htmem, ?_⟩
  have hprops : t ≠ [] ∧ ∀ c ∈ t, isPySpace c = false := by
    simp only [zeroTags, List.mem_cons, List.not_mem_nil, or_false] at htmem
    rcases htmem with h | h | h | h | h <;> subst h <;> exact ⟨by decide, by decide⟩
  obtain ⟨w1, w2, hdec, hw1, hw2⟩ := pyStrip_decomp l
  have hlow : pyLower l = w1 ++ (pyLower (pyStrip l) ++ w2) := by
    conv_lhs => rw [hdec]
    rw [pyLower_append, pyLower_append, pyLower_of_space w1 hw1,
      pyLower_of_space w2 hw2, List.append_assoc]
  rw [containsSub_iff] at hct ⊢
  rw [hlow] at hct
  have h1 : t <:+: pyLower (pyStrip l) ++ w2 :=
    infix_of_space_left hprops.1 hprops.2 w1 _ hw1 hct
  exact infix_of_space_right hprops.1 hprops.2 _ w2 hw2 h1

/-- Claim C9, confirmed.  Any input whose lowercased text contains one
of the substrings `ücretsiz`, `dahil`, `oyna`, `indir`, `n/a` anywhere
parses to the zero price `0.0` — substring containment, not token
match, so text carrying a numeric price alongside such a substring
still parses to `0`. -/
theorem C9_zero_tags :
    ∀ (s : String), hasZeroTag (pyLower s.toList) = true →
      parse_price (some s) = some 0 := by
  intro s h
  have h2 : hasZeroTag (pyLower (pyStrip s.data)) = true := hasZeroTag_strip s.data h
  simp [parse_price, h2]

/-- Claim C9, witness: `"indirimli 59,99"` contains the tag `indir`
after lowercasing and parses to `0`, not to `59.99`. -/
theorem C9_zero_tags_witness :
    hasZeroTag (pyLower ("indirimli 59,99").toList) = true ∧
    parse_price (some "indirimli 59,99") = some 0 :=
  ⟨by decide, C9_zero_tags "indirimli 59,99" (by decide)⟩

/-- Properties of the digit character table for `d < 10`. -/
theorem natToChar_spec (d : Nat) (h : d < 10) :
    48 ≤ (natToChar d).toNat ∧ (natToChar d).toNat ≤ 57 ∧
      (natToChar d).toNat - 48 = d := by
  interval_cases d <;> decide

/-- The digit accumulator appends to its accumulator argument. -/
theorem renderNatGo_append :
    ∀ (fuel n : Nat) (acc : List Char),
      renderNatGo fuel n acc = renderNatGo fuel n [] ++ acc := by
  intro fuel
  induction fuel with
  | zero => intro n acc; rfl
  | succ f ih =>
    intro n acc
    by_cases h : n = 0
    · simp [renderNatGo, h]
    · simp only [renderNatGo, if_neg h]
      rw [ih (n / 10) (natToChar (n % 10) :: acc), ih (n / 10) [natToChar (n % 10)]]
      simp

/-- With sufficient fuel the digit loop renders exactly the decimal
digits of `n`: their value folds back to `n` and each is a digit. -/
theorem renderNatGo_spec :
    ∀ (fuel n : Nat), n ≤ fuel →
      digitsVal (renderNatGo fuel n []) = n ∧
      ∀ c ∈ renderNatGo fuel n [], 48 ≤ c.toNat ∧ c.toNat ≤ 57 := by
  intro fuel
  induction fuel with
  | zero =>
    intro n h
    interval_cases n
    exact ⟨rfl, by simp [renderNatGo]⟩
  | succ f ih =>
    intro n h
    by_cases h0 : n = 0
    · subst h0
      exact ⟨rfl, by simp [renderNatGo]⟩
    · have hdiv : n / 10 ≤ f := by
        have := Nat.div_lt_self (Nat.pos_of_ne_zero h0) (by omega : 1 < 10)
        omega
      have hmod : n % 10 < 10 := Nat.mod_lt _ (by omega)
      obtain ⟨hlo, hhi, hval⟩ := natToChar_spec (n % 10) hmod
      obtain ⟨ihv, ihm⟩ := ih (n / 10) hdiv
      have hgo : renderNatGo (f + 1) n [] =
          renderNatGo f (n / 10) [] ++ [natToChar (n % 10)] := by
        simp only [renderNatGo, if_neg h0]
        exact renderNatGo_append f (n / 10) [natToChar (n % 10)]
      constructor
      · rw [hgo]
        have hsplit : digitsVal (renderNatGo f (n / 10) [] ++ [natToChar (n % 10)]) =
            10 * digitsVal (renderNatGo f (n / 10) []) +
              ((natToChar (n % 10)).toNat - 48) := by
          rw [digitsVal, digitsVal, List.foldl_append]
          rfl
        rw [hsplit, ihv, hval]
        omega
      · intro c hc
        rw [hgo] at hc
        rcases List.mem_append.mp hc with hc | hc
        · exact ihm c hc
        · rw [List.mem_singleton] at hc
          subst hc
          exact ⟨hlo, hhi⟩

/-- The decimal rendering of `n` is a nonempty digit string whose value
is `n`. -/
theorem renderNat_spec (n : Nat) :
    digitsVal (renderNat n) = n ∧ renderNat n ≠ [] ∧
      ∀ c ∈ renderNat n, 48 ≤ c.toNat ∧ c.toNat ≤ 57 := by
  by_cases h : n = 0
  · subst h
    refine ⟨rfl, by decide, ?_⟩
    intro c hc
    rw [renderNat] at hc
    simp at hc
    subst hc
    decide
  · rw [renderNat, if_neg h]
    obtain ⟨hv, hm⟩ := renderNatGo_spec n n le_rfl
    refine ⟨hv, ?_, hm⟩
    intro he
    rw [he] at hv
    exact h hv.symm

/-- `takeWhile` keeps a list every element of which satisfies the test. -/
theorem takeWhile_all {α : Type} {p : α → Bool} :
    ∀ (l : List α), (∀ c ∈ l, p c = true) → l.takeWhile p = l := by
  intro l
  induction l with
  | nil => intro _; rfl
  | cons c r ih =>
    intro h
    rw [List.takeWhile_cons, if_pos (h c (by simp))]
    rw [ih (fun x hx => h x (by simp [hx]))]

/-- `dropWhile` empties a list every element of which satisfies the test. -/
theorem dropWhile_all {α : Type} {p : α → Bool} :
    ∀ (l : List α), (∀ c ∈ l, p c = true) → l.dropWhile p = [] := by
  intro l
  induction l with
  | nil => intro _; rfl
  | cons c r ih =>
    intro h
    rw [List.dropWhile_cons, if_pos (h c (by simp))]
    exact ih (fun x hx => h x (by simp [hx]))

/-- `dropWhile` keeps a list no element of which satisfies the test. -/
theorem dropWhile_none {α : Type} {p : α → Bool} :
    ∀ (l : List α), (∀ c ∈ l, p c = false) → l.dropWhile p = l := by
  intro l
  cases l with
  | nil => intro _; rfl
  | cons c r =>
    intro h
    rw [List.dropWhile_cons, if_neg (by simp [h c (by simp)])]

/-- Digit characters are not whitespace. -/
theorem not_space_of_digit (c : Char) (h1 : 48 ≤ c.toNat) (h2 : c.toNat ≤ 57) :
    isPySpace c = false := by
  by_contra hb
  have ht : isPySpace c = true := by simpa using hb
  simp only [isPySpace, Bool.or_eq_true, decide_eq_true_eq] at ht
  rcases ht with ((((ht | ht) | ht) | ht) | ht) | ht <;> subst ht <;>
    exact absurd h1 (by decide)

/-- Digit characters are their own lowercase. -/
theorem pyLowerChar_digit (c : Char) (h1 : 48 ≤ c.toNat) (h2 : c.toNat ≤ 57) :
    pyLowerChar c = [c] := by
  rw [pyLowerChar]
  rw [if_neg (by omega)]
  rw [if_neg (fun hh : c = 'Ü' => absurd h2 (by subst hh; decide))]
  rw [if_neg (fun hh : c = 'Ç' => absurd h2 (by subst hh; decide))]
  rw [if_neg (fun hh : c = 'Ş' => absurd h2 (by subst hh; decide))]
  rw [if_neg (fun hh : c = 'Ö' => absurd h2 (by subst hh; decide))]
  rw [if_neg (fun hh : c = 'Ğ' => absurd h2 (by subst hh; decide))]
  rw [if_neg (fun hh : c = 'İ' => absurd h2 (by subst hh; decide))]

/-- Lowercasing a digit string is the identity. -/
theorem pyLower_digits :
    ∀ (l : List Char), (∀ c ∈ l, 48 ≤ c.toNat ∧ c.toNat ≤ 57) →
      pyLower l = l := by
  intro l
  induction l with
  | nil => intro _; rfl
  | cons c r ih =>
    intro h
    obtain ⟨h1, h2⟩ := h c (by simp)
    rw [pyLower, pyLowerChar_digit c h1 h2, ih (fun x hx => h x (by simp [hx]))]
    rfl

/-- Stripping a digit string is the identity. -/
theorem pyStrip_digits (l : List Char) (h : ∀ c ∈ l, 48 ≤ c.toNat ∧ c.toNat ≤ 57) :
    pyStrip l = l := by
  have hns : ∀ c ∈ l, isPySpace c = false :=
    fun c hc => not_space_of_digit c (h c hc).1 (h c hc).2
  rw [pyStrip, dropWhile_none l hns]
  rw [dropWhile_none l.reverse (fun c hc => hns c (List.mem_reverse.mp hc))]
  exact List.reverse_reverse l

/-- A digit string contains no zero-cost tag: every tag starts with a
letter whose code exceeds any digit code. -/
theorem hasZeroTag_digits (l : List Char)
    (h : ∀ c ∈ l, 48 ≤ c.toNat ∧ c.toNat ≤ 57) : hasZeroTag l = false := by
  rw [hasZeroTag, List.any_eq_false]
  intro t ht
  by_contra hb
  have hct : containsSub t l = true := by simpa using hb
  have hsub : t ⊆ l := ((containsSub_iff t l).mp hct).subset
  simp only [zeroTags, List.mem_cons, List.not_mem_nil, or_false] at ht
  rcases ht with h1 | h1 | h1 | h1 | h1 <;> subst h1
  · exact absurd (h _ (hsub (by decide : 'ü' ∈ "ücretsiz".toList))).2 (by decide)
  · exact absurd (h _ (hsub (by decide : 'd' ∈ "dahil".toList))).2 (by decide)
  · exact absurd (h _ (hsub (by decide : 'o' ∈ "oyna".toList))).2 (by decide)
  · exact absurd (h _ (hsub (by decide : 'i' ∈ "indir".toList))).2 (by decide)
  · exact absurd (h _ (hsub (by decide : 'n' ∈ "n/a".toList))).2 (by decide)

/-- Separator cleaning leaves a digit string unchanged. -/
theorem cleanChars_digits :
    ∀ (l : List Char), (∀ c ∈ l, 48 ≤ c.toNat ∧ c.toNat ≤ 57) →
      cleanChars l = l := by
  intro l
  induction l with
  | nil => intro _; rfl
  | cons c r ih =>
    intro h
    obtain ⟨h1, h2⟩ := h c (by simp)
    have hdot : c ≠ '.' := fun hh => absurd h1 (by subst hh; decide)
    have hcomma : c ≠ ',' := fun hh => absurd h1 (by subst hh; decide)
    have ihr := ih (fun x hx => h x (by simp [hx]))
    rw [cleanChars] at ihr ⊢
    simp only [ne_eq, decide_not] at ihr
    simp [List.filter_cons, hdot, hcomma, ihr]

/-- `float(...)` on a nonempty digit string returns its decimal value. -/
theorem pyFloat_digits (l : List Char) (hne : l ≠ [])
    (h : ∀ c ∈ l, 48 ≤ c.toNat ∧ c.toNat ≤ 57) :
    pyFloat l = some (mkRat (digitsVal l) 1) := by
  have hdig : ∀ c ∈ l, isDigitC c = true := by
    intro c hc
    obtain ⟨h1, h2⟩ := h c hc
    simp [isDigitC, h1, h2]
  have hbody : pyFloatBody l = some (mkRat (digitsVal l) 1) := by
    rw [pyFloatBody]
    simp only [takeWhile_all l hdig, dropWhile_all l hdig]
    rw [if_neg (by simpa [List.isEmpty_iff] using hne)]
  cases l with
  | nil => exact absurd rfl hne
  | cons c r =>
    obtain ⟨h1, h2⟩ := h c (by simp)
    rw [pyFloat]
    · exact hbody
    · intro r' heq
      have hc : c = '+' := ((List.cons.injEq ..).mp heq).1
      exact absurd h1 (by rw [hc]; decide)
    · intro r' heq
      have hc : c = '-' := ((List.cons.injEq ..).mp heq).1
      exact absurd h1 (by rw [hc]; decide)

/-- Claim C8, counterexample.  `"49,99"` parses to 49.99; its canonical
dot-decimal rendering is `"49.99"`; re-parsing that rendering strips the
dot as a thousands separator and yields 4999, not 49.99.  Parsing is
not idempotent on the canonical rendering. -/
theorem C8_counterexample :
    parse_price (some "49,99") = some (mkRat 4999 100) ∧
    renderPrice (mkRat 4999 100) = "49.99" ∧
    parse_price (some "49.99") = some (mkRat 4999 1) ∧
    (mkRat 4999 1 : ℚ) ≠ mkRat 4999 100 := by
  refine ⟨by decide, by decide, by decide, by decide⟩

/-- Claim C8, amended.  Because `parse_price` deletes every `'.'` as a
thousands separator, idempotence on the canonical rendering holds
exactly when the rendering contains no decimal point, i.e. for
integer-valued prices: parsing the decimal rendering of any natural `n`
gives back `n`.  For any price with a fractional part the re-parse
scales the value as in the counterexample. -/
theorem C8_amended (n : Nat) :
    parse_price (some (String.mk (renderNat n))) = some (mkRat n 1) := by
  obtain ⟨hv, hne, hb⟩ := renderNat_spec n
  show (if hasZeroTag (pyLower (pyStrip (renderNat n))) then some (0 : ℚ)
        else pyFloat (cleanChars (pyLower (pyStrip (renderNat n))))) = some (mkRat n 1)
  rw [pyStrip_digits _ hb, pyLower_digits _ hb]
  rw [if_neg (by simp [hasZeroTag_digits _ hb])]
  rw [cleanChars_digits _ hb, pyFloat_digits _ hne hb, hv]


/-- Lookup after an upsert: the upserted key reads back the new value,
other keys are unaffected. -/
theorem lookupA_upsert {α : Type} :
    ∀ (m : List (String × α)) (k q : String) (v : α),
      lookupA (upsert m k v) q = if k = q then some v else lookupA m q := by
  intro m
  induction m with
  | nil =>
    intro k q v
    simp only [upsert, lookupA]
  | cons p rest ih =>
    intro k q v
    obtain ⟨a, b⟩ := p
    by_cases hak : a = k
    · subst hak
      by_cases haq : a = q
      · subst haq
        simp [upsert, lookupA]
      · simp [upsert, lookupA, haq]
    · have hka : ¬ k = a := fun hh => hak hh.symm
      by_cases haq : a = q
      · subst haq
        have hkq : ¬ k = a := hka
        simp [upsert, lookupA, hak, hkq]
      · simp [upsert, lookupA, hak, haq, ih]

/-- Every entry of an upsert is the new pair or an old entry. -/
theorem mem_upsert {α : Type} :
    ∀ (m : List (String × α)) (k : String) (v : α) (p : String × α),
      p ∈ upsert m k v → p = (k, v) ∨ p ∈ m := by
  intro m
  induction m with
  | nil =>
    intro k v p hp
    simp [upsert] at hp
    exact Or.inl hp
  | cons q rest ih =>
    intro k v p hp
    obtain ⟨a, b⟩ := q
    by_cases hak : a = k
    · rw [upsert, if_pos hak] at hp
      rcases List.mem_cons.mp hp with hp | hp
      · exact Or.inl hp
      · exact Or.inr (List.mem_cons_of_mem _ hp)
    · rw [upsert, if_neg hak] at hp
      rcases List.mem_cons.mp hp with hp | hp
      · exact Or.inr (by simp [hp])
      · rcases ih k v p hp with hp | hp
        · exact Or.inl hp
        · exact Or.inr (List.mem_cons_of_mem _ hp)

/-- Upsert preserves distinctness of the dict keys. -/
theorem upsert_distinct {α : Type} :
    ∀ (m : List (String × α)) (k : String) (v : α),
      m.Pairwise (fun p q => p.1 ≠ q.1) →
      (upsert m k v).Pairwise (fun p q => p.1 ≠ q.1) := by
  intro m
  induction m with
  | nil =>
    intro k v _
    simp [upsert]
  | cons q rest ih =>
    intro k v h
    obtain ⟨a, b⟩ := q
    rw [List.pairwise_cons] at h
    by_cases hak : a = k
    · subst hak
      rw [upsert, if_pos rfl, List.pairwise_cons]
      exact ⟨fun p hp => h.1 p hp, h.2⟩
    · rw [upsert, if_neg hak, List.pairwise_cons]
      constructor
      · intro p hp
        rcases mem_upsert rest k v p hp with hp | hp
        · rw [hp]
          exact hak
        · exact h.1 p hp
      · exact ih k v h.2

/-- A successful lookup is a dict entry. -/
theorem lookupA_mem {α : Type} :
    ∀ (m : List (String × α)) (k : String) (v : α),
      lookupA m k = some v → (k, v) ∈ m := by
  intro m
  induction m with
  | nil => intro k v h; simp [lookupA] at h
  | cons q rest ih =>
    intro k v h
    obtain ⟨a, b⟩ := q
    by_cases hak : a = k
    · subst hak
      rw [lookupA, if_pos rfl] at h
      cases h
      exact List.mem_cons_self _ _
    · rw [lookupA, if_neg hak] at h
      exact List.mem_cons_of_mem _ (ih k v h)

/-- In a key-distinct dict every entry is found by lookup. -/
theorem mem_lookupA {α : Type} :
    ∀ (m : List (String × α)) (k : String) (v : α),
      m.Pairwise (fun p q => p.1 ≠ q.1) → (k, v) ∈ m →
      lookupA m k = some v := by
  intro m
  induction m with
  | nil => intro k v _ h; simp at h
  | cons q rest ih =>
    intro k v hd h
    obtain ⟨a, b⟩ := q
    rw [List.pairwise_cons] at hd
    rcases List.mem_cons.mp h with h | h
    · obtain ⟨h1, h2⟩ := Prod.mk.injEq .. ▸ h
      rw [lookupA, if_pos h1.symm]
      rw [h2]
    · have hak : ¬ a = k := by
        intro hh
        subst hh
        exact (hd.1 _ h) rfl
      rw [lookupA, if_neg hak]
      exact ih k v hd.2 h

/-- Writes apply in sequence. -/
theorem applyWrites_append (init : List (String × Row))
    (a b : List (String × Row)) :
    applyWrites init (a ++ b) = applyWrites (applyWrites init a) b := by
  rw [applyWrites, applyWrites, applyWrites, List.foldl_append]

/-- Applying writes preserves key distinctness. -/
theorem applyWrites_distinct :
    ∀ (ws : List (String × Row)) (init : List (String × Row)),
      init.Pairwise (fun p q => p.1 ≠ q.1) →
      (applyWrites init ws).Pairwise (fun p q => p.1 ≠ q.1) := by
  intro ws
  induction ws with
  | nil => intro init h; exact h
  | cons w r ih =>
    intro init h
    exact ih (upsert init w.1 w.2) (upsert_distinct init w.1 w.2 h)

/-- Every entry of the final dict is an initial entry or one of the
writes. -/
theorem mem_applyWrites :
    ∀ (ws : List (String × Row)) (init : List (String × Row))
      (p : String × Row), p ∈ applyWrites init ws → p ∈ init ∨ p ∈ ws := by
  intro ws
  induction ws with
  | nil => intro init p h; exact Or.inl h
  | cons w r ih =>
    intro init p h
    rcases ih (upsert init w.1 w.2) p h with h | h
    · rcases mem_upsert init w.1 w.2 p h with h | h
      · exact Or.inr (by simp [h])
      · exact Or.inl h
    · exact Or.inr (List.mem_cons_of_mem _ h)

/-- The final dict reads back, for each key, the value of its last
write, falling back to the initial dict. -/
theorem lookupA_applyWrites :
    ∀ (ws : List (String × Row)) (init : List (String × Row)) (k : String),
      lookupA (applyWrites init ws) k =
        match lastW k ws with
        | some v => some v
        | none => lookupA init k := by
  intro ws
  induction ws with
  | nil => intro init k; rfl
  | cons w r ih =>
    intro init k
    have step : applyWrites init (w :: r) = applyWrites (upsert init w.1 w.2) r := rfl
    rw [step, ih (upsert init w.1 w.2) k]
    cases hl : lastW k r with
    | some v => simp [lastW, hl]
    | none =>
      by_cases hk : w.1 = k
      · simp [lastW, hl, hk, lookupA_upsert]
      · have hk2 : ¬ w.1 = k := hk
        simp [lastW, hl, hk2, lookupA_upsert]

/-- The last write under a key is one of the writes. -/
theorem lastW_mem :
    ∀ (ws : List (String × Row)) (k : String) (v : Row),
      lastW k ws = some v → (k, v) ∈ ws := by
  intro ws
  induction ws with
  | nil => intro k v h; simp [lastW] at h
  | cons w r ih =>
    intro k v h
    rw [lastW] at h
    cases hl : lastW k r with
    | some v' =>
      rw [hl] at h
      cases h
      exact List.mem_cons_of_mem _ (ih k v hl)
    | none =>
      rw [hl] at h
      by_cases hk : w.1 = k
      · rw [if_pos hk] at h
        cases h
        have : (k, w.2) = w := by
          rw [← hk]
        rw [this]
        exact List.mem_cons_self _ _
      · rw [if_neg hk] at h
        cases h

/-- A key has a last write exactly when some write uses it. -/
theorem lastW_isSome_iff :
    ∀ (ws : List (String × Row)) (k : String),
      lastW k ws ≠ none ↔ ∃ w ∈ ws, w.1 = k := by
  intro ws
  induction ws with
  | nil => intro k; simp [lastW]
  | cons w r ih =>
    intro k
    cases hl : lastW k r with
    | some v =>
      have hmem : ∃ x ∈ r, x.1 = k := by
        rw [← ih k]
        simp [hl]
      constructor
      · intro _
        obtain ⟨x, hx, hxk⟩ := hmem
        exact ⟨x, List.mem_cons_of_mem _ hx, hxk⟩
      · intro _
        simp [lastW, hl]
    | none =>
      by_cases hk : w.1 = k
      · constructor
        · intro _
          exact ⟨w, List.mem_cons_self _ _, hk⟩
        · intro _
          simp [lastW, hl, hk]
      · constructor
        · intro h
          rw [lastW, hl, if_neg hk] at h
          exact absurd rfl h
        · intro h
          obtain ⟨x, hx, hxk⟩ := h
          rcases List.mem_cons.mp hx with hx | hx
          · subst hx
            exact absurd hxk hk
          · have : lastW k r ≠ none := (ih k).mpr ⟨x, hx, hxk⟩
            exact absurd hl this

/-- A history of fewer than two snapshots has no adjacent pairs. -/
theorem adjPairs_short {α : Type} :
    ∀ (l : List α), l.length < 2 → adjPairs l = [] := by
  intro l h
  match l with
  | [] => rfl
  | [_] => rfl
  | _ :: _ :: _ => simp at h; omega

/-- The previous-edition dict build succeeds on name-carrying editions
and equals its pure mirror. -/
theorem foldE_prevInsert :
    ∀ (l : List EditionDoc) (acc : List (String × EditionDoc)),
      (∀ e ∈ l, e.name ≠ none) →
      foldE prevInsertE acc l = .ok (l.foldl prevInsert acc) := by
  intro l
  induction l with
  | nil => intro acc _; rfl
  | cons e r ih =>
    intro acc h
    cases hn : e.name with
    | none => exact absurd hn (h e (by simp))
    | some n =>
      simp only [foldE, prevInsertE, hn, List.foldl_cons, prevInsert]
      exact ih _ (fun x hx => h x (by simp [hx]))

/-- `buildPrevMap` equals its pure mirror on well-formed editions. -/
theorem buildPrevMap_eq (l : List EditionDoc) (h : ∀ e ∈ l, e.name ≠ none) :
    buildPrevMap l = .ok (prevMapOf l) :=
  foldE_prevInsert l [] h

/-- `processEdition` performs exactly the optional write `edWrite`. -/
theorem processEdition_eq (infoMap : List (String × GameInfo))
    (gameId : String) (prevMap : List (String × EditionDoc))
    (acc : List (String × Row)) (curEd : EditionDoc)
    (h : curEd.name ≠ none) :
    processEdition infoMap gameId prevMap acc curEd =
      .ok (applyW acc (edWrite infoMap gameId prevMap curEd)) := by
  cases hn : curEd.name with
  | none => exact absurd hn h
  | some n =>
    simp only [processEdition, edWrite, hn]
    cases hl : lookupA prevMap n with
    | none => rfl
    | some prevEd =>
      cases hp : parse_price prevEd.price with
      | none => cases hc : parse_price curEd.price <;> simp [hp, hc, applyW]
      | some pp =>
        cases hc : parse_price curEd.price with
        | none => simp [hp, hc, applyW]
        | some cp =>
          by_cases hlt : cp < pp
          · simp [hp, hc, hlt, applyW]
          · simp [hp, hc, hlt, applyW]

/-- The edition loop performs exactly the writes of `edWrite`, in
order. -/
theorem foldE_processEdition (infoMap : List (String × GameInfo))
    (gameId : String) (prevMap : List (String × EditionDoc)) :
    ∀ (eds : List EditionDoc) (acc : List (String × Row)),
      (∀ e ∈ eds, e.name ≠ none) →
      foldE (processEdition infoMap gameId prevMap) acc eds =
        .ok (applyWrites acc (eds.filterMap (edWrite infoMap gameId prevMap))) := by
  intro eds
  induction eds with
  | nil => intro acc _; rfl
  | cons e r ih =>
    intro acc h
    have step : foldE (processEdition infoMap gameId prevMap) acc (e :: r) =
        foldE (processEdition infoMap gameId prevMap)
          (applyW acc (edWrite infoMap gameId prevMap e)) r := by
      rw [foldE, processEdition_eq infoMap gameId prevMap acc e (h e (by simp))]
    rw [step, ih _ (fun x hx => h x (by simp [hx]))]
    cases hw : edWrite infoMap gameId prevMap e with
    | none => simp [List.filterMap_cons, hw, applyW]
    | some w => simp [List.filterMap_cons, hw, applyW, applyWrites]

/-- `processPair` performs exactly the writes of `pairWrites` on
well-formed documents. -/
theorem processPair_eq (now : Int) (infoMap : List (String × GameInfo))
    (gameId : String) (acc : List (String × Row))
    (prevDoc curDoc : SnapshotDoc)
    (hd : curDoc.snapshotDate ≠ none)
    (hprev : ∀ e ∈ prevDoc.editions.getD [], e.name ≠ none)
    (hcur : ∀ e ∈ curDoc.editions.getD [], e.name ≠ none) :
    processPair now infoMap gameId acc prevDoc curDoc =
      .ok (applyWrites acc (pairWrites now infoMap gameId prevDoc curDoc)) := by
  cases hdd : curDoc.snapshotDate with
  | none => exact absurd hdd hd
  | some d =>
    simp only [processPair, pairWrites, hdd]
    by_cases hw : daysDiff now d > LOOKBACK_DAYS
    · simp only [if_pos hw]
      rfl
    · simp only [if_neg hw]
      rw [buildPrevMap_eq _ hprev]
      exact foldE_processEdition infoMap gameId _ _ acc hcur

/-- The pair loop performs exactly the writes of all adjacent pairs, in
order, on a well-formed history. -/
theorem foldPairsE_eq (now : Int) (infoMap : List (String × GameInfo))
    (gameId : String) :
    ∀ (hist : List SnapshotDoc) (acc : List (String × Row)), HistWF hist →
      foldPairsE (processPair now infoMap gameId) acc hist =
        .ok (applyWrites acc ((adjPairs hist).flatMap
          (fun p => pairWrites now infoMap gameId p.1 p.2))) := by
  intro hist
  induction hist with
  | nil => intro acc _; rfl
  | cons x r ih =>
    cases r with
    | nil => intro acc _; rfl
    | cons y rr =>
      intro acc hwf
      have hy := hwf y (by simp)
      have hex : ∀ e ∈ x.editions.getD [], e.name ≠ none := (hwf x (by simp)).2
      have step : foldPairsE (processPair now infoMap gameId) acc (x :: y :: rr) =
          foldPairsE (processPair now infoMap gameId)
            (applyWrites acc (pairWrites now infoMap gameId x y)) (y :: rr) := by
        rw [foldPairsE, processPair_eq now infoMap gameId acc x y hy.1 hex hy.2]
      rw [step, ih _ (fun s hs => hwf s (by simp [hs]))]
      rw [show adjPairs (x :: y :: rr) = (x, y) :: adjPairs (y :: rr) from rfl]
      rw [List.flatMap_cons, applyWrites_append]

/-- `processGame` performs exactly the writes of `gameWrites` on a
well-formed history. -/
theorem processGame_eq (now : Int) (infoMap : List (String × GameInfo))
    (acc : List (String × Row)) (g : String × List SnapshotDoc)
    (hwf : HistWF g.2) :
    processGame now infoMap acc g =
      .ok (applyWrites acc (gameWrites now infoMap g)) := by
  rw [processGame]
  by_cases hlen : g.2.length < 2
  · rw [if_pos hlen]
    rw [show gameWrites now infoMap g =
      (adjPairs g.2).flatMap (fun p => pairWrites now infoMap g.1 p.1 p.2) from rfl]
    rw [adjPairs_short g.2 hlen]
    rfl
  · rw [if_neg hlen]
    exact foldPairsE_eq now infoMap g.1 g.2 acc hwf

/-- On well-formed input the endpoint succeeds and its report is the
sorted value list of the dict obtained by playing all scan writes in
order. -/
theorem engine_eq_writes (now : Int)
    (hs : List (String × List SnapshotDoc))
    (infoMap : List (String × GameInfo))
    (hwf : ∀ g ∈ hs, HistWF g.2) :
    get_recent_discounts now hs infoMap =
      .ok (pySort ((applyWrites [] (allWrites now infoMap hs)).map Prod.snd)) := by
  have aux : ∀ (l : List (String × List SnapshotDoc)) (acc : List (String × Row)),
      (∀ g ∈ l, HistWF g.2) →
      foldE (processGame now infoMap) acc l =
        .ok (applyWrites acc (allWrites now infoMap l)) := by
    intro l
    induction l with
    | nil => intro acc _; rfl
    | cons g r ih =>
      intro acc h
      have step : foldE (processGame now infoMap) acc (g :: r) =
          foldE (processGame now infoMap)
            (applyWrites acc (gameWrites now infoMap g)) r := by
        rw [foldE, processGame_eq now infoMap acc g (h g (by simp))]
      rw [step, ih _ (fun q hq => h q (by simp [hq]))]
      rw [show allWrites now infoMap (g :: r) =
        gameWrites now infoMap g ++ allWrites now infoMap r from
          List.flatMap_cons ..]
      rw [applyWrites_append]
  rw [get_recent_discounts]
  by_cases he : hs = []
  · subst he
    simp [allWrites, applyWrites, pySort]
  · rw [if_neg he, aux hs [] hwf]


/-- Insertion permutes with consing. -/
theorem insertDesc_perm (r : Row) : ∀ (l : List Row), (insertDesc r l).Perm (r :: l) := by
  intro l
  induction l with
  | nil => exact List.Perm.refl _
  | cons x xs ih =>
    rw [insertDesc]
    by_cases hlt : x.priceDrop < r.priceDrop
    · rw [if_pos hlt]
    · rw [if_neg hlt]
      exact (ih.cons x).trans (List.Perm.swap r x xs)

/-- The report sort is a permutation of its input. -/
theorem pySort_perm (l : List Row) : (pySort l).Perm l := by
  have aux : ∀ (l acc : List Row),
      (l.foldl (fun a r => insertDesc r a) acc).Perm (l ++ acc) := by
    intro l
    induction l with
    | nil => intro acc; exact List.Perm.refl _
    | cons x xs ih =>
      intro acc
      have h1 : (x :: xs).foldl (fun a r => insertDesc r a) acc
          = xs.foldl (fun a r => insertDesc r a) (insertDesc x acc) := rfl
      have h2 := ih (insertDesc x acc)
      have h3 : (xs ++ insertDesc x acc).Perm (xs ++ (x :: acc)) :=
        List.Perm.append_left xs (insertDesc_perm x acc)
      have h4 : (xs ++ (x :: acc)).Perm (x :: (xs ++ acc)) := List.perm_middle
      rw [h1]
      exact (h2.trans h3).trans h4
  have h := aux l []
  rw [List.append_nil] at h
  exact h

/-- The concatenated dedup keys determine the edition name. -/
theorem key_inj (a b c : String) (h : a ++ "-" ++ b = a ++ "-" ++ c) : b = c := by
  have hd : (a ++ "-" ++ b).data = (a ++ "-" ++ c).data := by rw [h]
  simp only [String.data_append, List.append_assoc] at hd
  have hbc : b.data = c.data :=
    List.append_cancel_left (List.append_cancel_left hd)
  cases b
  cases c
  simp only at hbc
  rw [hbc]

/-- A write is performed exactly when the edition qualifies: named in
the newer snapshot, present in the previous-edition dict, both prices
parsed, strictly lower now — and the write is the keyed report row. -/
theorem edWrite_some_iff (infoMap : List (String × GameInfo))
    (gameId : String) (prevMap : List (String × EditionDoc))
    (curEd : EditionDoc) (w : String × Row) :
    edWrite infoMap gameId prevMap curEd = some w ↔
      ∃ n, curEd.name = some n ∧
      ∃ prevEd, lookupA prevMap n = some prevEd ∧
      ∃ pp cp, parse_price prevEd.price = some pp ∧
        parse_price curEd.price = some cp ∧ cp < pp ∧
        w = (gameId ++ "-" ++ n, mkRow infoMap gameId n pp cp) := by
  constructor
  · intro h
    cases hn : curEd.name with
    | none => simp [edWrite, hn] at h
    | some n =>
      simp only [edWrite, hn] at h
      cases hl : lookupA prevMap n with
      | none => simp [hl] at h
      | some prevEd =>
        simp only [hl] at h
        cases hp : parse_price prevEd.price with
        | none => simp [hp] at h
        | some pp =>
          simp only [hp] at h
          cases hc : parse_price curEd.price with
          | none => simp [hc] at h
          | some cp =>
            simp only [hc] at h
            by_cases hlt : cp < pp
            · rw [if_pos hlt] at h
              refine ⟨n, rfl, prevEd, hl, pp, cp, hp, rfl, hlt, ?_⟩
              exact ((Option.some.injEq ..).mp h).symm
            · rw [if_neg hlt] at h
              cases h
  · rintro ⟨n, hn, prevEd, hl, pp, cp, hp, hc, hlt, hw⟩
    subst hw
    simp [edWrite, hn, hl, hp, hc, hlt]

/-- An adjacent pair writes under the key of edition `e` exactly when it
qualifies for `e`. -/
theorem pairWrites_qualifies (now : Int) (infoMap : List (String × GameInfo))
    (gameId : String) (prevDoc curDoc : SnapshotDoc) (e : String) :
    (∃ w ∈ pairWrites now infoMap gameId prevDoc curDoc,
        w.1 = gameId ++ "-" ++ e) ↔ QualifyingPair now prevDoc curDoc e := by
  cases hd : curDoc.snapshotDate with
  | none =>
    constructor
    · rintro ⟨w, hw, _⟩
      simp [pairWrites, hd] at hw
    · rintro ⟨⟨d, hdd, _⟩, _⟩
      rw [hd] at hdd
      cases hdd
  | some d =>
    by_cases hwin : daysDiff now d > LOOKBACK_DAYS
    · constructor
      · rintro ⟨w, hw, _⟩
        simp [pairWrites, hd, hwin] at hw
      · rintro ⟨⟨d', hdd, hle⟩, _⟩
        rw [hd] at hdd
        cases hdd
        exact absurd hle (not_le.mpr hwin)
    · have hpw : pairWrites now infoMap gameId prevDoc curDoc =
          (curDoc.editions.getD []).filterMap
            (edWrite infoMap gameId (prevMapOf (prevDoc.editions.getD []))) := by
        simp [pairWrites, hd, hwin]
      rw [hpw]
      constructor
      · rintro ⟨w, hw, hkey⟩
        obtain ⟨curEd, hce, hew⟩ := List.mem_filterMap.mp hw
        obtain ⟨n, hn, prevEd, hl, pp, cp, hp, hc, hlt, hweq⟩ :=
          (edWrite_some_iff ..).mp hew
        have hne : n = e := by
          apply key_inj gameId
          rw [← hkey, hweq]
        subst hne
        exact ⟨⟨d, hd, not_lt.mp hwin⟩, prevEd, hl, curEd, hce, hn,
          pp, cp, hp, hc, hlt⟩
      · rintro ⟨⟨d', hdd, _⟩, prevEd, hl, curEd, hce, hn, pp, cp, hp, hc, hlt⟩
        refine ⟨(gameId ++ "-" ++ e, mkRow infoMap gameId e pp cp), ?_, rfl⟩
        apply List.mem_filterMap.mpr
        exact ⟨curEd, hce, (edWrite_some_iff ..).mpr
          ⟨e, hn, prevEd, hl, pp, cp, hp, hc, hlt, rfl⟩⟩

/-- Every write of the bulk scan is keyed by its own row's dedup key and
carries the scanned item's identifier. -/
theorem allWrites_key (now : Int) (infoMap : List (String × GameInfo))
    (hs : List (String × List SnapshotDoc)) (w : String × Row)
    (h : w ∈ allWrites now infoMap hs) :
    ∃ g ∈ hs, w.2.gameId = g.1 ∧ w.1 = rowKey w.2 := by
  obtain ⟨g, hg, hw⟩ := List.mem_flatMap.mp h
  refine ⟨g, hg, ?_⟩
  obtain ⟨p, hp, hpw⟩ := List.mem_flatMap.mp hw
  have hform : ∃ curEd ∈ p.2.editions.getD [],
      edWrite infoMap g.1 (prevMapOf (p.1.editions.getD [])) curEd = some w := by
    cases hd : p.2.snapshotDate with
    | none => simp [pairWrites, hd] at hpw
    | some d =>
      by_cases hwin : daysDiff now d > LOOKBACK_DAYS
      · simp [pairWrites, hd, hwin] at hpw
      · simp only [pairWrites, hd, if_neg hwin] at hpw
        exact List.mem_filterMap.mp hpw
  obtain ⟨curEd, _, hew⟩ := hform
  obtain ⟨n, _, prevEd, _, pp, cp, _, _, _, hweq⟩ := (edWrite_some_iff ..).mp hew
  subst hweq
  exact ⟨rfl, rfl⟩

/-- Claim C4, confirmed.  In every successful report of a well-formed
bulk scan there is at most one row per `(itemId, editionName)` pair,
and each retained row is exactly the value of the LAST write performed
under its dedup key — i.e. the most recently scanned candidate for that
pair, which (histories being scanned oldest to newest) is the candidate
with the most recent drop date. -/
theorem C4_dedup (now : Int) (hs : List (String × List SnapshotDoc))
    (infoMap : List (String × GameInfo)) (rows : List Row)
    (hwf : ∀ g ∈ hs, HistWF g.2)
    (h : get_recent_discounts now hs infoMap = .ok rows) :
    rows.Pairwise
      (fun a b => ¬(a.gameId = b.gameId ∧ a.editionName = b.editionName)) ∧
    ∀ r ∈ rows, lastW (rowKey r) (allWrites now infoMap hs) = some r := by
  rw [engine_eq_writes now hs infoMap hwf] at h
  have hrows : rows =
      pySort ((applyWrites [] (allWrites now infoMap hs)).map Prod.snd) :=
    ((Except.ok.injEq ..).mp h).symm
  have hdist : (applyWrites [] (allWrites now infoMap hs)).Pairwise
      (fun p q => p.1 ≠ q.1) :=
    applyWrites_distinct _ [] List.Pairwise.nil
  have hkeys : ∀ p ∈ applyWrites [] (allWrites now infoMap hs),
      p.1 = rowKey p.2 := by
    intro p hp
    rcases mem_applyWrites _ [] p hp with hp | hp
    · simp at hp
    · obtain ⟨g, _, _, hk⟩ := allWrites_key now infoMap hs p hp
      exact hk
  have hsymm : ∀ {a b : Row},
      (¬(a.gameId = b.gameId ∧ a.editionName = b.editionName)) →
      (¬(b.gameId = a.gameId ∧ b.editionName = a.editionName)) := by
    intro a b hne hh
    exact hne ⟨hh.1.symm, hh.2.symm⟩
  constructor
  · have hpair1 : (applyWrites [] (allWrites now infoMap hs)).Pairwise
        (fun p q => rowKey p.2 ≠ rowKey q.2) := by
      refine List.Pairwise.imp_of_mem ?_ hdist
      intro p q hp hq hne
      rw [← hkeys p hp, ← hkeys q hq]
      exact hne
    have hpair2 : ((applyWrites [] (allWrites now infoMap hs)).map
        Prod.snd).Pairwise
        (fun a b => ¬(a.gameId = b.gameId ∧ a.editionName = b.editionName)) := by
      rw [List.pairwise_map]
      refine hpair1.imp ?_
      intro p q hne hh
      exact hne (by rw [rowKey, rowKey, hh.1, hh.2])
    rw [hrows]
    exact ((pySort_perm _).pairwise_iff hsymm).mpr hpair2
  · intro r hr
    rw [hrows] at hr
    have hr2 : r ∈ (applyWrites [] (allWrites now infoMap hs)).map Prod.snd :=
      (pySort_perm _).mem_iff.mp hr
    obtain ⟨p, hp, hps⟩ := List.mem_map.mp hr2
    have hkey := hkeys p hp
    have hmem : (p.1, p.2) ∈ applyWrites [] (allWrites now infoMap hs) := hp
    have hlook := mem_lookupA _ p.1 p.2 hdist hmem
    rw [lookupA_applyWrites] at hlook
    cases hlast : lastW p.1 (allWrites now infoMap hs) with
    | none =>
      rw [hlast] at hlook
      simp [lookupA] at hlook
    | some v =>
      rw [hlast] at hlook
      have hv : v = p.2 := by
        simpa using hlook
      rw [← hps, ← hkey, hlast, hv, hps]

/-- Claim C4, witness at a concrete input: the single reported row for
item `"w4"` is the last (and only) write under its key. -/
theorem C4_dedup_witness :
    lastW (rowKey { gameId := "w4", name := "Bilinmeyen Oyun", coverUrl := ""
                    editionName := "E", previousPrice := mkRat 2000 100
                    currentPrice := mkRat 1000 100, priceDrop := 10 })
      (allWrites (daySecs 7) []
        [("w4", [oneEdSnap 0 "E" "20,00", oneEdSnap (daySecs 4) "E" "10,00"])])
      = some { gameId := "w4", name := "Bilinmeyen Oyun", coverUrl := ""
               editionName := "E", previousPrice := mkRat 2000 100
               currentPrice := mkRat 1000 100, priceDrop := 10 } :=
  (C4_dedup (daySecs 7)
    [("w4", [oneEdSnap 0 "E" "20,00", oneEdSnap (daySecs 4) "E" "10,00"])] []
    [{ gameId := "w4", name := "Bilinmeyen Oyun", coverUrl := ""
       editionName := "E", previousPrice := mkRat 2000 100
       currentPrice := mkRat 1000 100, priceDrop := 10 }]
    (by decide) (by decide)).2
    { gameId := "w4", name := "Bilinmeyen Oyun", coverUrl := ""
      editionName := "E", previousPrice := mkRat 2000 100
      currentPrice := mkRat 1000 100, priceDrop := 10 }
    (by decide)

/-- Claim C2, amended.  For a single well-formed item, a discount event
for an edition appears in the report IF AND ONLY IF some adjacent
snapshot pair qualifies: the newer snapshot of the pair lies within the
window (floor day-difference at most 7, which also admits future
dates), both snapshots price the edition parseably, and the newer price
is strictly lower.  No still-active-run condition is involved, and the
window is tested on each drop's own date, not on the run onset. -/
theorem C2_amended (now : Int) (g : String) (hist : List SnapshotDoc)
    (infoMap : List (String × GameInfo)) (e : String) (rows : List Row)
    (hwf : HistWF hist)
    (h : get_recent_discounts now [(g, hist)] infoMap = .ok rows) :
    (∃ r ∈ rows, r.editionName = e) ↔
      ∃ p ∈ adjPairs hist, QualifyingPair now p.1 p.2 e := by
  have hwf1 : ∀ q ∈ [(g, hist)], HistWF q.2 := by
    intro q hq
    rw [List.mem_singleton] at hq
    subst hq
    exact hwf
  rw [engine_eq_writes now [(g, hist)] infoMap hwf1] at h
  have hrows : rows =
      pySort ((applyWrites []
        (allWrites now infoMap [(g, hist)])).map Prod.snd) :=
    ((Except.ok.injEq ..).mp h).symm
  have hws : allWrites now infoMap [(g, hist)] =
      (adjPairs hist).flatMap (fun p => pairWrites now infoMap g p.1 p.2) := by
    simp [allWrites, gameWrites]
  have hdist : (applyWrites [] (allWrites now infoMap [(g, hist)])).Pairwise
      (fun p q => p.1 ≠ q.1) :=
    applyWrites_distinct _ [] List.Pairwise.nil
  have hkeyinv : ∀ w ∈ allWrites now infoMap [(g, hist)],
      w.1 = rowKey w.2 ∧ w.2.gameId = g := by
    intro w hw
    obtain ⟨q, hq, hgid, hk⟩ := allWrites_key now infoMap [(g, hist)] w hw
    rw [List.mem_singleton] at hq
    subst hq
    exact ⟨hk, hgid⟩
  constructor
  · rintro ⟨r, hr, hre⟩
    rw [hrows] at hr
    have hr2 : r ∈ (applyWrites []
        (allWrites now infoMap [(g, hist)])).map Prod.snd :=
      (pySort_perm _).mem_iff.mp hr
    obtain ⟨p, hp, hps⟩ := List.mem_map.mp hr2
    have hpw : p ∈ allWrites now infoMap [(g, hist)] := by
      rcases mem_applyWrites _ [] p hp with hp0 | hp0
      · simp at hp0
      · exact hp0
    obtain ⟨hk, hgid⟩ := hkeyinv p hpw
    rw [hws] at hpw
    obtain ⟨pr, hpr, hprw⟩ := List.mem_flatMap.mp hpw
    refine ⟨pr, hpr, ?_⟩
    apply (pairWrites_qualifies now infoMap g pr.1 pr.2 e).mp
    refine ⟨p, hprw, ?_⟩
    rw [hk, rowKey, hps, hre]
    rw [hps] at hgid
    rw [hgid]
  · rintro ⟨pr, hpr, hq⟩
    obtain ⟨w, hwmem, hkey⟩ :=
      (pairWrites_qualifies now infoMap g pr.1 pr.2 e).mpr hq
    have hwall : w ∈ allWrites now infoMap [(g, hist)] := by
      rw [hws]
      exact List.mem_flatMap.mpr ⟨pr, hpr, hwmem⟩
    have hlast : lastW (g ++ "-" ++ e) (allWrites now infoMap [(g, hist)]) ≠ none :=
      (lastW_isSome_iff _ _).mpr ⟨w, hwall, hkey⟩
    cases hl : lastW (g ++ "-" ++ e) (allWrites now infoMap [(g, hist)]) with
    | none => exact absurd hl hlast
    | some v =>
      have hlook : lookupA (applyWrites []
          (allWrites now infoMap [(g, hist)])) (g ++ "-" ++ e) = some v := by
        rw [lookupA_applyWrites, hl]
      have hvmem := lookupA_mem _ _ _ hlook
      have hvall : (g ++ "-" ++ e, v) ∈ allWrites now infoMap [(g, hist)] := by
        rcases mem_applyWrites _ [] _ hvmem with h0 | h0
        · simp at h0
        · exact h0
      obtain ⟨hk, hgid⟩ := hkeyinv _ hvall
      have hk2 : g ++ "-" ++ e = v.gameId ++ "-" ++ v.editionName := hk
      have hgid2 : v.gameId = g := hgid
      rw [hgid2] at hk2
      have hve : v.editionName = e := (key_inj g e v.editionName hk2).symm
      refine ⟨v, ?_, hve⟩
      rw [hrows]
      apply (pySort_perm _).mem_iff.mpr
      exact List.mem_map.mpr ⟨(g ++ "-" ++ e, v), hvmem, rfl⟩

/-- Claim C2, counterexample.  History: 30.00 (01-01), 20.00 (01-02),
30.00 (01-03), `now` = 01-04.  The spec's run-based detector (section
4.3, `specActiveDiscount`) closes the run at the 01-03 increase, so the
edition is NOT in a still-active discount — yet the engine reports the
01-02 drop.  The claimed "if and only if the run is still active"
characterisation is false for this code. -/
theorem C2_counterexample :
    specActiveDiscount (daySecs 3) 7 "E"
        [oneEdSnap 0 "E" "30,00", oneEdSnap (daySecs 1) "E" "20,00",
         oneEdSnap (daySecs 2) "E" "30,00"] = false ∧
    get_recent_discounts (daySecs 3)
        [("g", [oneEdSnap 0 "E" "30,00", oneEdSnap (daySecs 1) "E" "20,00",
                oneEdSnap (daySecs 2) "E" "30,00"])] []
      = .ok [{ gameId := "g", name := "Bilinmeyen Oyun", coverUrl := ""
               editionName := "E", previousPrice := 30, currentPrice := 20
               priceDrop := 10 }] := by
  constructor
  · decide
  · decide

/-- Claim C2, witness for the amended theorem at a concrete two-snapshot
input: the report contains an `"E"` row iff some adjacent pair
qualifies for `"E"` (both sides hold here). -/
theorem C2_amended_witness :
    (∃ r ∈ [{ gameId := "g", name := "Bilinmeyen Oyun", coverUrl := ""
              editionName := "E", previousPrice := mkRat 2000 100
              currentPrice := mkRat 1000 100, priceDrop := (10 : ℚ) }],
        Row.editionName r = "E") ↔
      ∃ p ∈ adjPairs [oneEdSnap 0 "E" "20,00", oneEdSnap (daySecs 4) "E" "10,00"],
        QualifyingPair (daySecs 7) p.1 p.2 "E" :=
  C2_amended (daySecs 7) "g"
    [oneEdSnap 0 "E" "20,00", oneEdSnap (daySecs 4) "E" "10,00"] [] "E"
    [{ gameId := "g", name := "Bilinmeyen Oyun", coverUrl := ""
       editionName := "E", previousPrice := mkRat 2000 100
       currentPrice := mkRat 1000 100, priceDrop := 10 }]
    (by decide) (by decide)
